import Mathlib

/-!
# Verification of the feed-ingestion core (`src/core/collector.py`)

Shallow embedding of the `PaperCollector` pipeline: text normalisation
(`_clean_text`, `_clean_abstract`), date resolution and entry parsing
(`_parse_entry`), journal classification (`_detect_journal_type`), abstract
extraction (`_extract_abstract`) and the orchestrator (`fetch_papers`).

Machine-level conventions of the embedding:
* Python strings are `String` (a list of characters); regular-expression
  substitutions from the source are implemented as explicit character
  scanners with the exact leftmost-match semantics of `re.sub`.
* `datetime` instants are modelled as `Int` seconds; `timedelta(days = d)`
  is `d * 86400` seconds; `datetime.min` is the constant `-62135596800`
  (0001-01-01 relative to the epoch).
* The external `dateutil` parser is a parameter
  `parse : String → Option PyDT`, where a `PyDT` carries the parsed
  wall-clock value and an optional UTC offset (`tzinfo`).
* The HTTP fetch + feedparser stage is a parameter
  `fetched : Except String (List Entry)`; `Except.error` is a raised
  request exception or a non-2xx `raise_for_status`.
-/

/-- Python `\s` / `str.strip` whitespace over ASCII: space, tab, newline,
carriage return, vertical tab, form feed. -/
def wsb (c : Char) : Bool :=
  c = ' ' || c = '\t' || c = '\n' || c = '\r' || c = '\x0b' || c = '\x0c'

/-- Python regex `\w` word character (ASCII fragment): letters, digits,
underscore.  Used for the `\b` boundaries in `_clean_abstract`. -/
def wordChar (c : Char) : Bool :=
  ('a' ≤ c && c ≤ 'z') || ('A' ≤ c && c ≤ 'Z') || ('0' ≤ c && c ≤ '9') || c = '_'

/-- Modelled from the external standard library: the fragment of Python's
`html.unescape` (called by `_clean_abstract` and `_clean_text`) covering the
common named character references `&amp;` `&lt;` `&gt;` `&quot;`, replaced
left to right exactly as the stdlib does.  Fuel-indexed so that the
definition is structural; it is always run with fuel = length. -/
def unescGo : Nat → List Char → List Char
  | 0, l => l
  | _ + 1, [] => []
  | f + 1, c :: cs =>
    if c = '&' then
      if cs.take 4 = "amp;".data then '&' :: unescGo f (cs.drop 4)
      else if cs.take 3 = "lt;".data then '<' :: unescGo f (cs.drop 3)
      else if cs.take 3 = "gt;".data then '>' :: unescGo f (cs.drop 3)
      else if cs.take 5 = "quot;".data then '"' :: unescGo f (cs.drop 5)
      else c :: unescGo f cs
    else c :: unescGo f cs

/-- `html.unescape` on a character list. -/
def unescape (l : List Char) : List Char := unescGo l.length l

/-- State machine implementing `re.sub(r'<[^>]+>', repl, ·)` from
`_clean_abstract` (`repl = " "`) and `_clean_text` (`repl = ""`).
The first argument is `none` while scanning outside a candidate tag and
`some pend` (reversed pending characters) after an unmatched `<`.  A `>`
with a non-empty pending body closes the tag (leftmost match); `<>` and a
`<` with no later `>` are left verbatim, as the regex leaves them. -/
def tagGo (repl : List Char) : Option (List Char) → List Char → List Char
  | none, [] => []
  | some pend, [] => '<' :: pend.reverse
  | none, c :: cs =>
    if c = '<' then tagGo repl (some []) cs else c :: tagGo repl none cs
  | some pend, c :: cs =>
    if c = '>' then
      if pend = [] then '<' :: '>' :: tagGo repl none cs
      else repl ++ tagGo repl none cs
    else tagGo repl (some (c :: pend)) cs

/-- `re.sub(r'<[^>]+>', repl, ·)`. -/
def stripTags (repl : List Char) (l : List Char) : List Char := tagGo repl none l

/-- State machine implementing `re.sub(r'\s+', ' ', ·)`: the flag records
whether the previous character was whitespace (run already emitted). -/
def collapseAux : Bool → List Char → List Char
  | _, [] => []
  | prevWs, c :: cs =>
    if wsb c then
      if prevWs then collapseAux true cs else ' ' :: collapseAux true cs
    else c :: collapseAux false cs

/-- `re.sub(r'\s+', ' ', ·)`. -/
def collapseWs (l : List Char) : List Char := collapseAux false l

/-- Remove trailing whitespace (the right half of `str.strip()`). -/
def stripEnd : List Char → List Char
  | [] => []
  | c :: cs =>
    match stripEnd cs with
    | [] => if wsb c then [] else [c]
    | d :: r => c :: d :: r

/-- Python `str.strip()` on a character list. -/
def stripList (l : List Char) : List Char := stripEnd (l.dropWhile wsb)

/-- Python `str.strip()` (used on the `link` field in `_parse_entry`). -/
def pyStrip (s : String) : String := ⟨stripList s.data⟩

/-- The test of `re.sub(r'^ABSTRACT\s*', '', ·, flags = re.IGNORECASE)`:
the anchored match fires only when the string literally begins with the
eight letters of `ABSTRACT` (any case). -/
def startsWithAbstract (l : List Char) : Bool :=
  (l.take 8).map Char.toLower = "abstract".data

/-- `re.sub(r'^ABSTRACT\s*', '', ·, flags = re.IGNORECASE)` from
`_clean_abstract`. -/
def stripAbstractLabel (l : List Char) : List Char :=
  if startsWithAbstract l then (l.drop 8).dropWhile wsb else l

/-- The alternation `Purpose|Objective|Background|Methods?|Results?|
Conclusions?|Discussion` flattened in the order the regex engine tries it
(each greedy optional `s?` first with, then without, its `s`). -/
def labelPats : List (List Char) :=
  ["purpose".data, "objective".data, "background".data,
   "methods".data, "method".data, "results".data, "result".data,
   "conclusions".data, "conclusion".data, "discussion".data]

/-- The `\b` after the alternation group: position `n` of `l` is the end of
the string or a non-word character. -/
def boundaryAfter (l : List Char) (n : Nat) : Bool :=
  match l.drop n with
  | [] => true
  | c :: _ => !wordChar c

/-- Case-insensitive prefix match of one alternative plus its trailing
word boundary. -/
def matchPat (pat l : List Char) : Bool :=
  ((l.take pat.length).map Char.toLower = pat) && boundaryAfter l pat.length

/-- First alternative (in regex order) matching at the head of `l`;
returns the matched length. -/
def findPat (l : List Char) : List (List Char) → Option Nat
  | [] => none
  | p :: ps => if matchPat p l then some p.length else findPat l ps

/-- Greedy consumption of the trailing `\s*:?\s*` after a matched label of
length `n`; returns the total matched length. -/
def consumeTail (l : List Char) (n : Nat) : Nat :=
  let r1 := l.drop n
  let w1 := (r1.takeWhile wsb).length
  match r1.drop w1 with
  | ':' :: r3 => n + w1 + 1 + (r3.takeWhile wsb).length
  | _ => n + w1

/-- Attempt the structural-label match at the head of `l` (boundary before
the head is checked by the caller). -/
def tryLabel (l : List Char) : Option Nat :=
  match findPat l labelPats with
  | none => none
  | some n => some (consumeTail l n)

/-- Scanner implementing
`re.sub(r'\b(Purpose|...|Discussion)\b\s*:?\s*', '', ·, re.IGNORECASE)`.
`prevWord` records whether the previously consumed character of the
original string was a word character (so `\b` holds at the current
position iff `prevWord` is false, every alternative starting with a
letter).  Fuel-indexed to keep the definition structural; each step
consumes at least one character, so fuel = length suffices. -/
def labelGo : Nat → Bool → List Char → List Char
  | 0, _, l => l
  | _ + 1, _, [] => []
  | f + 1, prevWord, c :: cs =>
    if prevWord then c :: labelGo f (wordChar c) cs
    else
      match tryLabel (c :: cs) with
      | some n =>
        labelGo f
          (match ((c :: cs).take n).getLast? with
           | some d => wordChar d
           | none => false)
          ((c :: cs).drop n)
      | none => c :: labelGo f (wordChar c) cs

/-- The structural-label removal pass of `_clean_abstract`. -/
def labelStrip (l : List Char) : List Char := labelGo l.length false l

/-- `PaperCollector._clean_text` (collector.py lines 236-250): decode
entities, delete `<...>` tags (replacement is the empty string), collapse
whitespace runs, strip. -/
def cleanText (s : String) : String :=
  if s = "" then "" else
    ⟨stripList (collapseWs (stripTags [] (unescape s.data)))⟩

/-- `PaperCollector._clean_abstract` (collector.py lines 210-234): decode
entities, replace `<...>` tags with a space, strip an anchored leading
`ABSTRACT` label, remove structural labels, collapse whitespace, strip. -/
def cleanAbstract (s : String) : String :=
  if s = "" then "" else
    ⟨stripList (collapseWs (labelStrip (stripAbstractLabel
      (stripTags [' '] (unescape s.data)))))⟩

/-- Python's `a or b` on strings: `b` when `a` is empty (falsy), else `a`. -/
def pyOr (a b : String) : String := if a = "" then b else a

/-- A raw feed entry as read by `_parse_entry` / `_extract_abstract`: the
fields the code asks `entry.get(..., "")` for.  `get` returns `""` for a
missing key, so a missing field and an empty field are the same value. -/
structure Entry where
  published : String := ""
  updated : String := ""
  dc_date : String := ""
  prism_publicationdate : String := ""
  pubDate : String := ""
  title : String := ""
  link : String := ""
  description : String := ""
  summary : String := ""
  dc_description : String := ""

/-- The result of the external `dateutil.parser.parse`: a wall-clock value
(the local date-time components, in seconds) and the UTC offset of its
`tzinfo`, `none` for a naive result.  The corresponding UTC instant would
be `wall - offset`. -/
structure PyDT where
  wall : Int
  offset : Option Int := none
deriving DecidableEq

/-- A normalized output record, the dictionary built at the end of
`_parse_entry` (collector.py lines 165-171). -/
structure Paper where
  title : String
  link : String
  abstract : String
  published : String
  parsed_date : Option Int
deriving DecidableEq

/-- The journal tags returned by `_detect_journal_type`. -/
inductive JournalType
  | wiley | springer | nejm | lancet | jama | bmj | generic
deriving DecidableEq

/-- `p` is a literal prefix of `l`. -/
def isPrefixList (p l : List Char) : Bool := l.take p.length = p

/-- `p` occurs contiguously in `l`. -/
def isInfixList (p : List Char) : List Char → Bool
  | [] => p = ([] : List Char)
  | c :: cs => isPrefixList p (c :: cs) || isInfixList p cs

/-- Substring test (`'pat' in s` in Python). -/
def strContains (s pat : String) : Bool := isInfixList pat.data s.data

/-- Python `str.lower()` (ASCII fragment). -/
def lowerStr (s : String) : String := ⟨s.data.map Char.toLower⟩

/-- `PaperCollector._detect_journal_type` (collector.py lines 102-120):
first matching URL substring wins, fallback `generic`. -/
def detectJournalType (url : String) : JournalType :=
  let u := lowerStr url
  if strContains u "wiley.com" then .wiley
  else if strContains u "springer.com" then .springer
  else if strContains u "nejm.org" then .nejm
  else if strContains u "thelancet.com" then .lancet
  else if strContains u "jamanetwork.com" then .jama
  else if strContains u "bmj.com" then .bmj
  else .generic

/-- The raw-abstract field selection of `_extract_abstract`
(collector.py lines 175-205): `wiley` prefers `dc_description`; the other
named journals and the generic fallback use `description or summary`
(`bmj` has no branch of its own and falls through to the `else`). -/
def extractRawAbstract (e : Entry) (jt : JournalType) : String :=
  match jt with
  | .wiley => pyOr e.dc_description (pyOr e.description e.summary)
  | .springer => pyOr e.description e.summary
  | .nejm => pyOr e.description e.summary
  | .lancet => pyOr e.description e.summary
  | .jama => pyOr e.description e.summary
  | .bmj => pyOr e.description (pyOr e.summary "")
  | .generic => pyOr e.description (pyOr e.summary "")

/-- `PaperCollector._extract_abstract`: clean the selected field, falling
back to the sentinel when the cleaned text is empty. -/
def extractAbstract (e : Entry) (jt : JournalType) : String :=
  let cleaned := cleanAbstract (extractRawAbstract e jt)
  if cleaned = "" then "No abstract available" else cleaned

/-- The candidate date string of `_parse_entry` (collector.py lines
129-137): `published or updated or dc_date or prism_publicationdate or
pubDate or ""` with Python `or` semantics. -/
def candidateDateStr (e : Entry) : String :=
  pyOr e.published (pyOr e.updated (pyOr e.dc_date
    (pyOr e.prism_publicationdate (pyOr e.pubDate ""))))

/-- `PaperCollector._parse_entry` (collector.py lines 122-171).
`parse` is the external `dateutil` parser (`none` = the call raised).
The code drops the offset with `replace(tzinfo = None)`, keeping the
wall-clock value; a pre-cutoff parse returns `None` (rejected); a failed
parse leaves `pub_date = None` and keeps the entry; finally an entry with
an empty cleaned title or empty stripped link is rejected. -/
def parseEntry (parse : String → Option PyDT) (e : Entry) (cutoff : Int)
    (jt : JournalType) : Option Paper :=
  let s := candidateDateStr e
  let pdOpt : Option (Option Int) :=
    if s = "" then some none
    else
      match parse s with
      | none => some none
      | some dt => if dt.wall < cutoff then none else some (some dt.wall)
  match pdOpt with
  | none => none
  | some pd =>
    if cleanText e.title = "" ∨ pyStrip e.link = "" then none
    else some
      { title := cleanText e.title
        link := pyStrip e.link
        abstract := extractAbstract e jt
        published := pyOr s "Unknown date"
        parsed_date := pd }

/-- `datetime.min` of the sort key `p.get('parsed_date') or datetime.min`,
as seconds relative to the epoch (0001-01-01T00:00:00). -/
def datetimeMin : Int := -62135596800

/-- The sort key used in `fetch_papers`. -/
def sortKey (p : Paper) : Int := p.parsed_date.getD datetimeMin

/-- Stable descending insertion: `x` (an element arriving from earlier in
the input) is placed before the first element whose key is not greater
than its own, which is exactly the ordering `list.sort(key=...,
reverse=True)` produces (Python's sort is stable, also with `reverse`). -/
def insertDesc (x : Paper) : List Paper → List Paper
  | [] => [x]
  | h :: t => if sortKey x < sortKey h then h :: insertDesc x t else x :: h :: t

/-- Stable descending sort by `sortKey`, modelling
`papers.sort(key=lambda p: p.get('parsed_date') or datetime.min,
reverse=True)`. -/
def sortDesc : List Paper → List Paper
  | [] => []
  | x :: xs => insertDesc x (sortDesc xs)

/-- Seconds per day (`timedelta(days = 1)` in the `Int`-seconds model). -/
def secondsPerDay : Int := 86400

/-- The cutoff of `fetch_papers` line 79:
`datetime.now() - timedelta(days = months_back * 30)`. -/
def cutoffOf (now months_back : Int) : Int :=
  now - months_back * 30 * secondsPerDay

/-- `PaperCollector.fetch_papers` (collector.py lines 42-100).  The whole
body runs inside `try: ... except Exception: return []`; the fallible
network + feedparser stage is the `fetched` argument, so `Except.error`
covers a raised request exception, a timeout and a non-2xx
`raise_for_status` (the JAMA warm-up request and the bozo warning are
logging-only side effects with no data flow).  On success the entries are
parsed against the cutoff, sorted newest first and truncated. -/
def fetchPapers (parse : String → Option PyDT) (now : Int)
    (fetched : Except String (List Entry)) (url : String)
    (months_back : Int) (max_papers : Nat) : List Paper :=
  match fetched with
  | .error _ => []
  | .ok entries =>
    let jt := detectJournalType url
    let cutoff := cutoffOf now months_back
    let papers := entries.filterMap fun e => parseEntry parse e cutoff jt
    (sortDesc papers).take max_papers

/-- Modelled from the spec: §4.2's "use the first non-empty string found"
over the ordered candidate list; compared with the code's `or`-chain in
the C9 refinement theorem. -/
def firstNonEmpty : List String → String
  | [] => ""
  | s :: rest => if s ≠ "" then s else firstNonEmpty rest


/-! ## Structural lemmas about `parseEntry` -/

lemma parseEntry_some_fields {parse : String → Option PyDT} {e : Entry}
    {cutoff : Int} {jt : JournalType} {p : Paper}
    (h : parseEntry parse e cutoff jt = some p) :
    p.title = cleanText e.title ∧ p.link = pyStrip e.link
      ∧ cleanText e.title ≠ "" ∧ pyStrip e.link ≠ "" := by
  simp only [parseEntry] at h
  split at h
  · simp at h
  · split at h
    · simp at h
    · rename_i hcond
      push_neg at hcond
      cases Option.some.inj h
      exact ⟨rfl, rfl, hcond.1, hcond.2⟩

lemma parseEntry_some_date {parse : String → Option PyDT} {e : Entry}
    {cutoff : Int} {jt : JournalType} {p : Paper}
    (h : parseEntry parse e cutoff jt = some p)
    {w : Int} (hw : p.parsed_date = some w) : cutoff ≤ w := by
  simp only [parseEntry] at h
  split at h
  · simp at h
  · rename_i pd hpd
    split at h
    · simp at h
    · cases Option.some.inj h
      simp only at hw
      split at hpd
      · cases Option.some.inj hpd; simp at hw
      · split at hpd
        · cases Option.some.inj hpd; simp at hw
        · rename_i dt _
          split at hpd
          · simp at hpd
          · rename_i hnlt
            cases Option.some.inj hpd
            cases Option.some.inj hw
            omega

/-! ## The stable descending sort -/

lemma insertDesc_perm (x : Paper) (l : List Paper) :
    (insertDesc x l).Perm (x :: l) := by
  induction l with
  | nil => exact List.Perm.refl _
  | cons h t ih =>
    unfold insertDesc
    split
    · exact (ih.cons h).trans (List.Perm.swap x h t)
    · exact List.Perm.refl _

lemma sortDesc_perm (l : List Paper) : (sortDesc l).Perm l := by
  induction l with
  | nil => exact List.Perm.refl _
  | cons x xs ih => exact (insertDesc_perm x (sortDesc xs)).trans (ih.cons x)

lemma insertDesc_pairwise {x : Paper} {l : List Paper}
    (h : l.Pairwise fun a b => sortKey b ≤ sortKey a) :
    (insertDesc x l).Pairwise fun a b => sortKey b ≤ sortKey a := by
  induction l with
  | nil => simp [insertDesc]
  | cons hd t ih =>
    rcases List.pairwise_cons.1 h with ⟨h1, h2⟩
    unfold insertDesc
    split
    · rename_i hlt
      refine List.pairwise_cons.2 ⟨?_, ih h2⟩
      intro b hb
      rcases (List.mem_cons).1 ((insertDesc_perm x t).mem_iff.1 hb) with hbx | hbt
      · subst hbx; exact le_of_lt hlt
      · exact h1 b hbt
    · rename_i hnlt
      refine List.pairwise_cons.2 ⟨?_, h⟩
      intro b hb
      rcases (List.mem_cons).1 hb with hbh | hbt
      · subst hbh; exact not_lt.1 hnlt
      · exact (h1 b hbt).trans (not_lt.1 hnlt)

lemma sortDesc_pairwise (l : List Paper) :
    (sortDesc l).Pairwise fun a b => sortKey b ≤ sortKey a := by
  induction l with
  | nil => simp [sortDesc]
  | cons x xs ih => exact insertDesc_pairwise ih

lemma filter_insertDesc (k : Int) (x : Paper) (l : List Paper) :
    (insertDesc x l).filter (fun p => sortKey p == k)
      = if sortKey x = k then x :: l.filter (fun p => sortKey p == k)
        else l.filter (fun p => sortKey p == k) := by
  induction l with
  | nil =>
    by_cases hk : sortKey x = k <;> simp [insertDesc, List.filter_cons, hk]
  | cons hd t ih =>
    unfold insertDesc
    split
    · rename_i hlt
      by_cases hk : sortKey x = k
      · have hhd : ¬ sortKey hd = k := by omega
        simp [List.filter_cons, hhd, ih, hk]
      · simp [List.filter_cons, ih, hk]
    · by_cases hk : sortKey x = k <;> simp [List.filter_cons, hk]

lemma sortDesc_filter (k : Int) (l : List Paper) :
    (sortDesc l).filter (fun p => sortKey p == k)
      = l.filter (fun p => sortKey p == k) := by
  induction l with
  | nil => rfl
  | cons x xs ih =>
    show (insertDesc x (sortDesc xs)).filter _ = _
    rw [filter_insertDesc]
    by_cases hk : sortKey x = k <;> simp [List.filter_cons, hk, ih]

/-- Membership in the fetch output comes from a successfully parsed entry. -/
lemma mem_fetchPapers {parse : String → Option PyDT} {now : Int}
    {fetched : Except String (List Entry)} {url : String} {mb : Int}
    {mp : Nat} {p : Paper} (h : p ∈ fetchPapers parse now fetched url mb mp) :
    ∃ e, parseEntry parse e (cutoffOf now mb) (detectJournalType url) = some p := by
  match fetched with
  | .error _ => simp [fetchPapers] at h
  | .ok entries =>
    have h1 : p ∈ sortDesc (entries.filterMap fun e =>
        parseEntry parse e (cutoffOf now mb) (detectJournalType url)) :=
      List.take_subset _ _ h
    have h2 := (sortDesc_perm _).mem_iff.1 h1
    rcases List.mem_filterMap.1 h2 with ⟨e, _, he⟩
    exact ⟨e, he⟩

/-! ## Concrete instances used by the witness theorems -/

/-- A date parser that always fails (every `dateutil` call raises). -/
def parseNoneFn : String → Option PyDT := fun _ => none

/-- A date parser returning an offset-aware instant. -/
def parseOffsetFn : String → Option PyDT :=
  fun _ => some { wall := 1000, offset := some 3600 }

/-- A date parser returning an instant far before any realistic cutoff. -/
def parseOldFn : String → Option PyDT :=
  fun _ => some { wall := -99999999999, offset := none }

/-- A date parser returning a recent naive instant. -/
def parseNewFn : String → Option PyDT := fun _ => some { wall := 100, offset := none }

/-- Entry with title and link but no date fields. -/
def entTL : Entry := { title := "T", link := "L" }

/-- Entry with title, link and a (symbolic) date string. -/
def entD : Entry := { title := "T", link := "L", published := "x" }

/-- The paper produced from `entTL`. -/
def paperTL : Paper :=
  { title := "T", link := "L", abstract := "No abstract available",
    published := "Unknown date", parsed_date := none }

/-- The paper produced from `entD` under a failing parser. -/
def paperD : Paper :=
  { title := "T", link := "L", abstract := "No abstract available",
    published := "x", parsed_date := none }

/-- The paper produced from `entD` under `parseOffsetFn`. -/
def paperOff : Paper :=
  { title := "T", link := "L", abstract := "No abstract available",
    published := "x", parsed_date := some 1000 }

/-! ## Claim theorems -/

/-- C1: for every URL, months_back and max_papers, `fetch_papers` never
propagates an exception: whenever the HTTP fetch stage fails (connection
error, timeout, or non-2xx status raised by `raise_for_status`) the whole
`try` body is abandoned and the empty list is returned.  In the embedding
every later step is a total function (the source wraps the entire body in
`except Exception: return []`), so the error case of the fetch stage is
the only failure channel, and it yields `[]`. -/
theorem fetchFailure_returns_empty (parse : String → Option PyDT) (now : Int)
    (err : String) (url : String) (months_back : Int) (max_papers : Nat) :
    fetchPapers parse now (Except.error err) url months_back max_papers = [] := rfl

/-- C9: the date string consulted by `_parse_entry` is the first non-empty
value among `published`, `updated`, `dc_date`, `prism_publicationdate`,
`pubDate`, in that fixed order (`firstNonEmpty` is the spec-side
formulation of §4.2; the code's `or`-chain refines it exactly, so later
fields are never consulted when an earlier one is non-empty). -/
theorem dateField_priority (e : Entry) :
    candidateDateStr e = firstNonEmpty
      [e.published, e.updated, e.dc_date, e.prism_publicationdate, e.pubDate] := by
  simp only [candidateDateStr, firstNonEmpty, pyOr]
  by_cases h1 : e.published = "" <;> by_cases h2 : e.updated = "" <;>
    by_cases h3 : e.dc_date = "" <;> by_cases h4 : e.prism_publicationdate = "" <;>
    by_cases h5 : e.pubDate = "" <;> simp [h1, h2, h3, h4, h5]

/-- C3: a Paper is emitted only if both the cleaned title and the stripped
link are non-empty (the emitted fields are exactly those cleaned values),
and consequently no paper in the output of `fetch_papers` has an empty
title or link. -/
theorem titleLink_nonEmpty (parse : String → Option PyDT) :
    (∀ (e : Entry) (cutoff : Int) (jt : JournalType) (p : Paper),
        parseEntry parse e cutoff jt = some p →
          p.title = cleanText e.title ∧ p.link = pyStrip e.link
            ∧ p.title ≠ "" ∧ p.link ≠ "")
    ∧ ∀ (now : Int) (fetched : Except String (List Entry)) (url : String)
        (mb : Int) (mp : Nat) (p : Paper),
        p ∈ fetchPapers parse now fetched url mb mp →
          p.title ≠ "" ∧ p.link ≠ "" := by
  constructor
  · intro e cutoff jt p h
    obtain ⟨h1, h2, h3, h4⟩ := parseEntry_some_fields h
    exact ⟨h1, h2, h1 ▸ h3, h2 ▸ h4⟩
  · intro now fetched url mb mp p h
    obtain ⟨e, he⟩ := mem_fetchPapers h
    obtain ⟨h1, h2, h3, h4⟩ := parseEntry_some_fields he
    exact ⟨h1 ▸ h3, h2 ▸ h4⟩

/-- Witness for C3 at a concrete feed. -/
theorem titleLink_nonEmpty_witness : paperTL.title ≠ "" ∧ paperTL.link ≠ "" :=
  (titleLink_nonEmpty parseNoneFn).2 0 (Except.ok [entTL]) "u" 1 5 paperTL (by decide)

/-- C4: the cutoff is `now - months_back * 30 days`; an entry whose date
string parses strictly before it is rejected (so it is excluded from the
`filterMap` feeding the output), and an entry parsing at or after the
cutoff is rejected only for an empty title or link, never on date
grounds. -/
theorem dateCutoff_filters (parse : String → Option PyDT) (now months_back : Int)
    (e : Entry) (jt : JournalType) (dt : PyDT) :
    cutoffOf now months_back = now - months_back * 30 * secondsPerDay
    ∧ (candidateDateStr e ≠ "" → parse (candidateDateStr e) = some dt →
        dt.wall < cutoffOf now months_back →
        parseEntry parse e (cutoffOf now months_back) jt = none)
    ∧ (parse (candidateDateStr e) = some dt →
        ¬ dt.wall < cutoffOf now months_back →
        (parseEntry parse e (cutoffOf now months_back) jt = none
          ↔ cleanText e.title = "" ∨ pyStrip e.link = "")) := by
  refine ⟨rfl, ?_, ?_⟩
  · intro hne hp hlt
    simp [parseEntry, hne, hp, hlt]
  · intro hp hge
    by_cases hs : candidateDateStr e = ""
    · by_cases hc : cleanText e.title = "" ∨ pyStrip e.link = "" <;>
        simp [parseEntry, hs, hc]
    · by_cases hc : cleanText e.title = "" ∨ pyStrip e.link = "" <;>
        simp [parseEntry, hs, hp, hge, hc]

/-- Witness for C4 at concrete inputs. -/
theorem dateCutoff_filters_witness :
    cutoffOf 0 1 = 0 - 1 * 30 * secondsPerDay
    ∧ parseEntry parseOldFn entD (cutoffOf 0 1) JournalType.generic = none
    ∧ (parseEntry parseNewFn entD (cutoffOf 0 1) JournalType.generic = none
        ↔ cleanText entD.title = "" ∨ pyStrip entD.link = "") :=
  ⟨(dateCutoff_filters parseOldFn 0 1 entD .generic ⟨-99999999999, none⟩).1,
   (dateCutoff_filters parseOldFn 0 1 entD .generic ⟨-99999999999, none⟩).2.1
     (by decide) (by decide) (by decide),
   (dateCutoff_filters parseNewFn 0 1 entD .generic ⟨100, none⟩).2.2
     (by decide) (by decide)⟩

/-- C5: an entry whose candidate date string fails to parse is not
date-filtered: it is rejected only for an empty title/link, and when
emitted it carries no parsed timestamp and keeps the raw candidate string
for display; an entry with no candidate date string at all is likewise
kept, with the `"Unknown date"` sentinel for display. -/
theorem unparsableDate_kept (parse : String → Option PyDT) (e : Entry)
    (cutoff : Int) (jt : JournalType) :
    (candidateDateStr e ≠ "" → parse (candidateDateStr e) = none →
      (parseEntry parse e cutoff jt = none
        ↔ cleanText e.title = "" ∨ pyStrip e.link = "")
      ∧ ∀ p, parseEntry parse e cutoff jt = some p →
          p.parsed_date = none ∧ p.published = candidateDateStr e)
    ∧ (candidateDateStr e = "" →
      (parseEntry parse e cutoff jt = none
        ↔ cleanText e.title = "" ∨ pyStrip e.link = "")
      ∧ ∀ p, parseEntry parse e cutoff jt = some p →
          p.parsed_date = none ∧ p.published = "Unknown date") := by
  constructor
  · intro hne hp
    constructor
    · by_cases hc : cleanText e.title = "" ∨ pyStrip e.link = "" <;>
        simp [parseEntry, hne, hp, hc]
    · intro p h
      by_cases hc : cleanText e.title = "" ∨ pyStrip e.link = ""
      · simp [parseEntry, hne, hp, hc] at h
      · have hval : parseEntry parse e cutoff jt = some
            { title := cleanText e.title, link := pyStrip e.link,
              abstract := extractAbstract e jt,
              published := pyOr (candidateDateStr e) "Unknown date",
              parsed_date := none } := by
          simp [parseEntry, hne, hp, hc]
        rw [hval] at h
        cases Option.some.inj h
        exact ⟨rfl, by simp [pyOr, hne]⟩
  · intro hs
    constructor
    · by_cases hc : cleanText e.title = "" ∨ pyStrip e.link = "" <;>
        simp [parseEntry, hs, hc]
    · intro p h
      by_cases hc : cleanText e.title = "" ∨ pyStrip e.link = ""
      · simp [parseEntry, hs, hc] at h
      · have hval : parseEntry parse e cutoff jt = some
            { title := cleanText e.title, link := pyStrip e.link,
              abstract := extractAbstract e jt,
              published := pyOr (candidateDateStr e) "Unknown date",
              parsed_date := none } := by
          simp [parseEntry, hs, hc, pyOr]
        rw [hval] at h
        cases Option.some.inj h
        exact ⟨rfl, by simp [pyOr, hs]⟩

/-- Witness for C5 at concrete inputs. -/
theorem unparsableDate_kept_witness :
    (paperD.parsed_date = none ∧ paperD.published = candidateDateStr entD)
    ∧ (paperTL.parsed_date = none ∧ paperTL.published = "Unknown date") :=
  ⟨((unparsableDate_kept parseNoneFn entD 0 .generic).1 (by decide) (by decide)).2
      paperD (by decide),
   ((unparsableDate_kept parseNoneFn entTL 0 .generic).2 (by decide)).2
      paperTL (by decide)⟩

/-- C10: when the candidate date string parses to an offset-aware instant,
the stored timestamp is the wall-clock value with the offset simply
discarded (`replace(tzinfo=None)`), not the UTC instant `wall - offset`;
the cutoff comparison is performed on that same wall-clock value. -/
theorem tzOffset_discarded (parse : String → Option PyDT) (e : Entry)
    (cutoff : Int) (jt : JournalType) (dt : PyDT)
    (hne : candidateDateStr e ≠ "") (hp : parse (candidateDateStr e) = some dt) :
    (dt.wall < cutoff → parseEntry parse e cutoff jt = none)
    ∧ ∀ p, parseEntry parse e cutoff jt = some p →
        p.parsed_date = some dt.wall
        ∧ ∀ o, dt.offset = some o → o ≠ 0 →
            p.parsed_date ≠ some (dt.wall - o) := by
  constructor
  · intro hlt
    simp [parseEntry, hne, hp, hlt]
  · intro p h
    by_cases hlt : dt.wall < cutoff
    · simp [parseEntry, hne, hp, hlt] at h
    · by_cases hc : cleanText e.title = "" ∨ pyStrip e.link = ""
      · simp [parseEntry, hne, hp, hlt, hc] at h
      · have hval : parseEntry parse e cutoff jt = some
            { title := cleanText e.title, link := pyStrip e.link,
              abstract := extractAbstract e jt,
              published := pyOr (candidateDateStr e) "Unknown date",
              parsed_date := some dt.wall } := by
          simp [parseEntry, hne, hp, hlt, hc]
        rw [hval] at h
        cases Option.some.inj h
        refine ⟨rfl, ?_⟩
        intro o hoff ho hEq
        have := Option.some.inj hEq
        omega

/-- Witness for C10 at a concrete offset-aware parse. -/
theorem tzOffset_discarded_witness :
    paperOff.parsed_date = some (1000 : Int)
    ∧ paperOff.parsed_date ≠ some ((1000 : Int) - 3600) :=
  ⟨((tzOffset_discarded parseOffsetFn entD 0 .generic ⟨1000, some 3600⟩
      (by decide) (by decide)).2 paperOff (by decide)).1,
   ((tzOffset_discarded parseOffsetFn entD 0 .generic ⟨1000, some 3600⟩
      (by decide) (by decide)).2 paperOff (by decide)).2 3600 rfl (by decide)⟩

/-- C2: the returned list is the `max_papers`-prefix of the stable
descending sort of the parsed papers: its length is at most `max_papers`,
it is pairwise descending in the sort key, papers with an absent parsed
timestamp rank after every dated paper (their key `datetime.min` lies
strictly below the cutoff every dated paper passed), and sorting is
stable (the sublist of papers at any fixed key keeps the parse order). -/
theorem output_sorted_truncated (parse : String → Option PyDT) (now : Int)
    (entries : List Entry) (url : String) (mb : Int) (mp : Nat)
    (hcut : datetimeMin < cutoffOf now mb) :
    (fetchPapers parse now (Except.ok entries) url mb mp).length ≤ mp
    ∧ (fetchPapers parse now (Except.ok entries) url mb mp).Pairwise
        (fun a b => sortKey b ≤ sortKey a)
    ∧ (fetchPapers parse now (Except.ok entries) url mb mp).Pairwise
        (fun a b => a.parsed_date = none → b.parsed_date = none)
    ∧ fetchPapers parse now (Except.ok entries) url mb mp
        = (sortDesc (entries.filterMap fun e =>
            parseEntry parse e (cutoffOf now mb) (detectJournalType url))).take mp
    ∧ ∀ k : Int,
        ((sortDesc (entries.filterMap fun e =>
            parseEntry parse e (cutoffOf now mb) (detectJournalType url))).filter
          (fun p => sortKey p == k))
        = (entries.filterMap fun e =>
            parseEntry parse e (cutoffOf now mb) (detectJournalType url)).filter
          (fun p => sortKey p == k) := by
  have hout : fetchPapers parse now (Except.ok entries) url mb mp
      = (sortDesc (entries.filterMap fun e =>
          parseEntry parse e (cutoffOf now mb) (detectJournalType url))).take mp := rfl
  refine ⟨?_, ?_, ?_, hout, fun k => sortDesc_filter k _⟩
  · rw [hout]; exact List.length_take_le mp _
  · rw [hout]
    exact (sortDesc_pairwise _).sublist (List.take_sublist mp _)
  · rw [hout]
    have hpw := (sortDesc_pairwise
      (entries.filterMap fun e =>
        parseEntry parse e (cutoffOf now mb) (detectJournalType url))).sublist
      (List.take_sublist mp _)
    refine List.Pairwise.imp_of_mem ?_ hpw
    intro a b _ hb hle hnone
    have hbmem : b ∈ entries.filterMap fun e =>
        parseEntry parse e (cutoffOf now mb) (detectJournalType url) :=
      (sortDesc_perm _).mem_iff.1 (List.take_subset _ _ hb)
    cases hbt : b.parsed_date with
    | none => rfl
    | some w =>
      exfalso
      obtain ⟨e2, _, he2⟩ := List.mem_filterMap.1 hbmem
      have hge : cutoffOf now mb ≤ w := parseEntry_some_date he2 hbt
      have ka : sortKey a = datetimeMin := by simp [sortKey, hnone]
      have kb : sortKey b = w := by simp [sortKey, hbt]
      rw [ka, kb] at hle
      linarith

/-- Witness for C2 at a concrete feed. -/
theorem output_sorted_truncated_witness :
    datetimeMin < cutoffOf 0 1
    ∧ (fetchPapers parseNoneFn 0 (Except.ok [entTL]) "u" 1 3).length ≤ 3 :=
  ⟨by decide, (output_sorted_truncated parseNoneFn 0 [entTL] "u" 1 3 (by decide)).1⟩

/-! ## Lemmas about the cleaning scanners -/

/-- A list without ampersands passes through `unescGo` unchanged, at any
fuel. -/
lemma unescGo_id (f : Nat) {l : List Char} (h : '&' ∉ l) : unescGo f l = l := by
  induction f generalizing l with
  | zero => rfl
  | succ f ih =>
    cases l with
    | nil => rfl
    | cons c cs =>
      have hc : ¬ c = '&' := fun hEq => h (hEq ▸ List.mem_cons_self c cs)
      have hcs : '&' ∉ cs := fun hm => h (List.mem_cons_of_mem c hm)
      simp [unescGo, hc, ih hcs]

/-- A list without `<` passes through the tag scanner unchanged. -/
lemma tagGo_no_lt {repl : List Char} {l : List Char} (h : '<' ∉ l) :
    tagGo repl none l = l := by
  induction l with
  | nil => rfl
  | cons c cs ih =>
    have hc : ¬ c = '<' := fun hEq => h (hEq ▸ List.mem_cons_self c cs)
    have hcs : '<' ∉ cs := fun hm => h (List.mem_cons_of_mem c hm)
    simp [tagGo, hc, ih hcs]

/-- A `<`-free prefix is emitted verbatim by the tag scanner. -/
lemma tagGo_append {repl : List Char} {a : List Char} (l : List Char)
    (h : '<' ∉ a) : tagGo repl none (a ++ l) = a ++ tagGo repl none l := by
  induction a with
  | nil => rfl
  | cons c cs ih =>
    have hc : ¬ c = '<' := fun hEq => h (hEq ▸ List.mem_cons_self c cs)
    have hcs : '<' ∉ cs := fun hm => h (List.mem_cons_of_mem c hm)
    simp [tagGo, hc, ih hcs]

/-- Inside a pending tag whose body will be non-empty, the closing `>`
completes the match and emits the replacement. -/
lemma tagGo_pend {repl : List Char} (t : List Char) (pend : List Char)
    (b : List Char) (hgt : '>' ∉ t) (hne : pend ≠ [] ∨ t ≠ []) :
    tagGo repl (some pend) (t ++ '>' :: b) = repl ++ tagGo repl none b := by
  induction t generalizing pend with
  | nil =>
    have hp : pend ≠ [] := by
      rcases hne with h | h
      · exact h
      · exact absurd rfl h
    simp [tagGo, hp]
  | cons c cs ih =>
    have hc : ¬ c = '>' := fun hEq => hgt (hEq ▸ List.mem_cons_self c cs)
    have hcs : '>' ∉ cs := fun hm => hgt (List.mem_cons_of_mem c hm)
    have : tagGo repl (some pend) ((c :: cs) ++ '>' :: b)
        = tagGo repl (some (c :: pend)) (cs ++ '>' :: b) := by
      simp [tagGo, hc]
    rw [this, ih (c :: pend) hcs (Or.inl (by simp))]

/-- `cleanText` in the applied (pipeline) form, valid also for `""`. -/
lemma cleanText_eq (s : String) :
    cleanText s = ⟨stripList (collapseWs (stripTags [] (unescape s.data)))⟩ := by
  by_cases h : s = ""
  · subst h; rfl
  · simp [cleanText, h]

/-- `cleanAbstract` in the applied (pipeline) form, valid also for `""`. -/
lemma cleanAbstract_eq (s : String) :
    cleanAbstract s = ⟨stripList (collapseWs (labelStrip (stripAbstractLabel
      (stripTags [' '] (unescape s.data)))))⟩ := by
  by_cases h : s = ""
  · subst h; rfl
  · simp [cleanAbstract, h]

/-! ## C6 and C7 -/

/-- C6 (code bug): on the spec's scenario input the code does NOT produce
`"Drug X reduces risk."`.  `_clean_abstract` first replaces `<p>` by a
space, so the string no longer begins with `ABSTRACT` and the anchored
`^ABSTRACT\s*` pattern cannot fire, although the in-code comment says the
prefix is removed; the label `Background:` is removed, whitespace is
normalised, and the leading `ABSTRACT` survives. -/
theorem abstractScenario_actual :
    cleanAbstract "<p>ABSTRACT Background: Drug X reduces risk.</p>"
      = "ABSTRACT Drug X reduces risk."
    ∧ cleanAbstract "<p>ABSTRACT Background: Drug X reduces risk.</p>"
      ≠ "Drug X reduces risk." := by
  exact ⟨by decide, by decide⟩

/-- Counterexample to C7: `_clean_text` replaces a tag with the empty
string, not with a single space, so the text on either side of the tag is
joined into one word. -/
theorem titleTag_counterexample :
    cleanText "a<b>c" = "ac" ∧ cleanText "a<b>c" ≠ "a c" := by
  exact ⟨by decide, by decide⟩

/-- C7 as amended: the title cleaner deletes each markup tag, replacing it
with the empty string (joining the surrounding text), then collapses
whitespace and trims.  Stated as: removing one tag from the input does not
change the cleaned result, for a tag in entity-free context. -/
theorem titleTag_amended (a t b : String) (ha1 : '<' ∉ a.data)
    (ha2 : '&' ∉ a.data) (ht1 : t.data ≠ []) (ht2 : '>' ∉ t.data)
    (ht3 : '&' ∉ t.data) (hb : '&' ∉ b.data) :
    cleanText (a ++ "<" ++ t ++ ">" ++ b) = cleanText (a ++ b) := by
  rw [cleanText_eq, cleanText_eq]
  have hdata1 : (a ++ "<" ++ t ++ ">" ++ b).data
      = a.data ++ '<' :: (t.data ++ '>' :: b.data) := by
    simp [String.data_append]
  have hdata2 : (a ++ b).data = a.data ++ b.data := String.data_append a b
  rw [hdata1, hdata2]
  have hamp1 : '&' ∉ a.data ++ '<' :: (t.data ++ '>' :: b.data) := by
    intro hm
    rcases List.mem_append.1 hm with h | h
    · exact ha2 h
    · rcases List.mem_cons.1 h with h | h
      · exact absurd h.symm (by decide)
      · rcases List.mem_append.1 h with h | h
        · exact ht3 h
        · rcases List.mem_cons.1 h with h | h
          · exact absurd h.symm (by decide)
          · exact hb h
  have hamp2 : '&' ∉ a.data ++ b.data := by
    intro hm
    rcases List.mem_append.1 hm with h | h
    · exact ha2 h
    · exact hb h
  rw [show unescape (a.data ++ '<' :: (t.data ++ '>' :: b.data))
        = a.data ++ '<' :: (t.data ++ '>' :: b.data) from unescGo_id _ hamp1,
      show unescape (a.data ++ b.data) = a.data ++ b.data from unescGo_id _ hamp2]
  have htag1 : stripTags [] (a.data ++ '<' :: (t.data ++ '>' :: b.data))
      = a.data ++ tagGo [] none b.data := by
    rw [show stripTags [] (a.data ++ '<' :: (t.data ++ '>' :: b.data))
          = tagGo [] none (a.data ++ '<' :: (t.data ++ '>' :: b.data)) from rfl,
        tagGo_append _ ha1]
    congr 1
    rw [show tagGo [] none ('<' :: (t.data ++ '>' :: b.data))
          = tagGo [] (some []) (t.data ++ '>' :: b.data) from by simp [tagGo]]
    rw [tagGo_pend t.data [] b.data ht2 (Or.inr ht1)]
    rfl
  have htag2 : stripTags [] (a.data ++ b.data) = a.data ++ tagGo [] none b.data := by
    rw [show stripTags [] (a.data ++ b.data) = tagGo [] none (a.data ++ b.data) from rfl,
        tagGo_append _ ha1]
  rw [htag1, htag2]

/-- Witness for the amended C7 at a concrete tag. -/
theorem titleTag_amended_witness :
    cleanText "x<i>y" = cleanText "xy" :=
  titleTag_amended "x" "i" "y" (by decide) (by decide) (by decide)
    (by decide) (by decide) (by decide)

/-! ## C8: idempotence analysis of `_clean_abstract` -/

/-- Every whitespace character of `l` is a plain space. -/
def AllWsSpace (l : List Char) : Prop := ∀ c ∈ l, wsb c = true → c = ' '

/-- No two adjacent whitespace characters in `l`. -/
def NoTwoWs (l : List Char) : Prop :=
  l.Chain' fun a b => wsb a = false ∨ wsb b = false

lemma collapseAux_false_ws {c : Char} (cs : List Char) (h : wsb c = true) :
    collapseAux false (c :: cs) = ' ' :: collapseAux true cs := by
  simp [collapseAux, h]

lemma collapseAux_true_ws {c : Char} (cs : List Char) (h : wsb c = true) :
    collapseAux true (c :: cs) = collapseAux true cs := by
  simp [collapseAux, h]

lemma collapseAux_nonws (b : Bool) {c : Char} (cs : List Char)
    (h : wsb c = false) : collapseAux b (c :: cs) = c :: collapseAux false cs := by
  cases b <;> simp [collapseAux, h]

lemma collapseAux_allSpace (b : Bool) (l : List Char) :
    AllWsSpace (collapseAux b l) := by
  induction l generalizing b with
  | nil => intro c hm; simp [collapseAux] at hm
  | cons c cs ih =>
    intro d hm hw
    by_cases hc : wsb c
    · cases b with
      | true =>
        rw [collapseAux_true_ws cs hc] at hm
        exact ih true d hm hw
      | false =>
        rw [collapseAux_false_ws cs hc] at hm
        rcases List.mem_cons.1 hm with h | h
        · exact h
        · exact ih true d h hw
    · rw [collapseAux_nonws b cs (by simpa using hc)] at hm
      rcases List.mem_cons.1 hm with h | h
      · subst h; rw [hw] at hc; exact absurd rfl hc
      · exact ih false d h hw

lemma collapseAux_chain (l : List Char) :
    NoTwoWs (collapseAux false l) ∧ NoTwoWs (collapseAux true l)
      ∧ ∀ c cs, collapseAux true l = c :: cs → wsb c = false := by
  induction l with
  | nil =>
    refine ⟨List.chain'_nil, List.chain'_nil, ?_⟩
    intro c cs h; simp [collapseAux] at h
  | cons c cs ih =>
    obtain ⟨ih1, ih2, ih3⟩ := ih
    by_cases hc : wsb c
    · have hcons : NoTwoWs (' ' :: collapseAux true cs) := by
        cases hcs : collapseAux true cs with
        | nil => simp [NoTwoWs]
        | cons d ds =>
          exact List.chain'_cons.2 ⟨Or.inr (ih3 d ds hcs), hcs ▸ ih2⟩
      refine ⟨?_, ?_, ?_⟩
      · rw [collapseAux_false_ws cs hc]; exact hcons
      · rw [collapseAux_true_ws cs hc]; exact ih2
      · intro d ds h
        rw [collapseAux_true_ws cs hc] at h
        exact ih3 d ds h
    · have hc' : wsb c = false := by simpa using hc
      have hcons : NoTwoWs (c :: collapseAux false cs) := by
        cases hcs : collapseAux false cs with
        | nil => simp [NoTwoWs]
        | cons d ds =>
          exact List.chain'_cons.2 ⟨Or.inl hc', hcs ▸ ih1⟩
      refine ⟨?_, ?_, ?_⟩
      · rw [collapseAux_nonws false cs hc']; exact hcons
      · rw [collapseAux_nonws true cs hc']; exact hcons
      · intro d ds h
        rw [collapseAux_nonws true cs hc'] at h
        injection h with h1 h2
        rw [← h1]; exact hc'

lemma collapseAux_fix (l : List Char) (hAll : AllWsSpace l) (hChain : NoTwoWs l) :
    collapseAux false l = l
      ∧ ((∀ c cs, l = c :: cs → wsb c = false) → collapseAux true l = l) := by
  induction l with
  | nil => exact ⟨rfl, fun _ => rfl⟩
  | cons c cs ih =>
    have hAllcs : AllWsSpace cs := fun d hm => hAll d (List.mem_cons_of_mem c hm)
    have hChaincs : NoTwoWs cs := hChain.tail
    obtain ⟨ihf, iht⟩ := ih hAllcs hChaincs
    by_cases hc : wsb c
    · have hsp : c = ' ' := hAll c (List.mem_cons_self c cs) hc
      have hhead : ∀ d ds, cs = d :: ds → wsb d = false := by
        intro d ds hds
        subst hds
        rcases List.chain'_cons.1 hChain with ⟨hpair, _⟩
        rcases hpair with h | h
        · rw [hc] at h; exact absurd h (by simp)
        · exact h
      constructor
      · rw [collapseAux_false_ws cs hc, iht hhead, hsp]
      · intro hh
        have := hh c cs rfl
        rw [hc] at this; exact absurd this (by simp)
    · have hc' : wsb c = false := by simpa using hc
      constructor
      · rw [collapseAux_nonws false cs hc', ihf]
      · intro _
        rw [collapseAux_nonws true cs hc', ihf]

lemma dropWhile_head_false (l : List Char) :
    ∀ c cs, l.dropWhile wsb = c :: cs → wsb c = false := by
  induction l with
  | nil => intro c cs h; simp at h
  | cons a as ih =>
    intro c cs h
    by_cases ha : wsb a
    · rw [List.dropWhile_cons_of_pos ha] at h
      exact ih c cs h
    · rw [List.dropWhile_cons_of_neg ha] at h
      injection h with h1 _
      rw [← h1]; simpa using ha

lemma stripEnd_prefix (l : List Char) : ∃ r, stripEnd l ++ r = l := by
  induction l with
  | nil => exact ⟨[], rfl⟩
  | cons c cs ih =>
    cases h : stripEnd cs with
    | nil =>
      by_cases hw : wsb c
      · exact ⟨c :: cs, by simp [stripEnd, h, hw]⟩
      · exact ⟨cs, by simp [stripEnd, h, hw]⟩
    | cons d r =>
      obtain ⟨r2, hr2⟩ := ih
      refine ⟨r2, ?_⟩
      have : stripEnd (c :: cs) = c :: d :: r := by simp [stripEnd, h]
      rw [this]
      rw [h] at hr2
      simpa using congrArg (c :: ·) hr2

lemma stripEnd_last (l : List Char) :
    ∀ x, (stripEnd l).getLast? = some x → wsb x = false := by
  induction l with
  | nil => intro x h; simp [stripEnd] at h
  | cons c cs ih =>
    intro x h
    cases hcs : stripEnd cs with
    | nil =>
      by_cases hw : wsb c
      · rw [show stripEnd (c :: cs) = [] by simp [stripEnd, hcs, hw]] at h
        simp at h
      · rw [show stripEnd (c :: cs) = [c] by simp [stripEnd, hcs, hw]] at h
        simp at h
        rw [← h]; simpa using hw
    | cons d r =>
      rw [show stripEnd (c :: cs) = c :: d :: r by simp [stripEnd, hcs]] at h
      rw [List.getLast?_cons_cons] at h
      exact ih x (by rw [hcs]; exact h)

lemma stripEnd_fix (l : List Char)
    (h : ∀ x, l.getLast? = some x → wsb x = false) : stripEnd l = l := by
  induction l with
  | nil => rfl
  | cons c cs ih =>
    cases cs with
    | nil =>
      have hc := h c (by simp)
      simp [stripEnd, hc]
    | cons d ds =>
      have hcs : stripEnd (d :: ds) = d :: ds := by
        refine ih ?_
        intro x hx
        exact h x (by rw [List.getLast?_cons_cons]; exact hx)
      show (match stripEnd (d :: ds) with
            | [] => if wsb c = true then [] else [c]
            | e :: r => c :: e :: r) = c :: d :: ds
      rw [hcs]

lemma dropWhile_fix (l : List Char)
    (h : ∀ c cs, l = c :: cs → wsb c = false) : l.dropWhile wsb = l := by
  cases l with
  | nil => rfl
  | cons c cs =>
    have := h c cs rfl
    rw [List.dropWhile_cons_of_neg (by simp [this])]

/-- The output of collapse-then-strip is a fixed point of both collapse and
strip: it is whitespace-normalised. -/
lemma normed_fix (z : List Char) :
    collapseWs (stripList (collapseWs z)) = stripList (collapseWs z)
      ∧ stripList (stripList (collapseWs z)) = stripList (collapseWs z) := by
  have hAllw : AllWsSpace (collapseWs z) := collapseAux_allSpace false z
  have hChainw : NoTwoWs (collapseWs z) := (collapseAux_chain z).1
  have hsuff : (collapseWs z).dropWhile wsb <:+ collapseWs z :=
    List.dropWhile_suffix wsb
  have hAllu : AllWsSpace ((collapseWs z).dropWhile wsb) :=
    fun c hm => hAllw c (hsuff.subset hm)
  have hChainu : NoTwoWs ((collapseWs z).dropWhile wsb) := hChainw.suffix hsuff
  obtain ⟨r, hr⟩ := stripEnd_prefix ((collapseWs z).dropWhile wsb)
  have hAlly : AllWsSpace (stripList (collapseWs z)) := by
    intro c hm
    exact hAllu c (by rw [← hr]; exact List.mem_append_left r hm)
  have hChainy : NoTwoWs (stripList (collapseWs z)) := hChainu.prefix ⟨r, hr⟩
  have hheady : ∀ c cs, stripList (collapseWs z) = c :: cs → wsb c = false := by
    intro c cs hcs
    refine dropWhile_head_false (collapseWs z) c (cs ++ r) ?_
    rw [← hr]
    rw [show stripList (collapseWs z) = stripEnd ((collapseWs z).dropWhile wsb)
      from rfl] at hcs
    rw [hcs]
    simp
  have hlasty : ∀ x, (stripList (collapseWs z)).getLast? = some x → wsb x = false :=
    stripEnd_last ((collapseWs z).dropWhile wsb)
  constructor
  · exact (collapseAux_fix _ hAlly hChainy).1
  · show stripEnd ((stripList (collapseWs z)).dropWhile wsb) = stripList (collapseWs z)
    rw [dropWhile_fix _ hheady, stripEnd_fix _ hlasty]

/-- Counterexample to C8: `_clean_abstract` is not idempotent.  The first
pass turns `<p>` into a space, which shields the `ABSTRACT` label from the
anchored prefix strip; the final trim then exposes it, and a second pass
removes it. -/
theorem abstractIdem_counterexample :
    cleanAbstract (cleanAbstract "<p>ABSTRACT x</p>")
      ≠ cleanAbstract "<p>ABSTRACT x</p>" := by decide

/-- C8 as amended: `clean_abstract` is idempotent on every input whose
cleaned result contains no ampersand and no angle bracket, does not begin
with an `ABSTRACT` label, and contains no removable structural-label
occurrence (the cleaned result is always whitespace-normalised, which is
proved, not assumed). -/
theorem abstractIdem_amended (x : String)
    (h1 : '&' ∉ (cleanAbstract x).data) (h2 : '<' ∉ (cleanAbstract x).data)
    (h3 : startsWithAbstract (cleanAbstract x).data = false)
    (h4 : labelStrip (cleanAbstract x).data = (cleanAbstract x).data) :
    cleanAbstract (cleanAbstract x) = cleanAbstract x := by
  rw [cleanAbstract_eq (cleanAbstract x),
      show unescape (cleanAbstract x).data = (cleanAbstract x).data from
        unescGo_id _ h1,
      show stripTags [' '] (cleanAbstract x).data = (cleanAbstract x).data from
        tagGo_no_lt h2,
      show stripAbstractLabel (cleanAbstract x).data = (cleanAbstract x).data from
        by simp [stripAbstractLabel, h3],
      h4, cleanAbstract_eq x]
  exact congrArg String.mk (by rw [(normed_fix _).1, (normed_fix _).2])

/-- Witness for the amended C8 at a concrete clean input. -/
theorem abstractIdem_amended_witness :
    ('&' ∉ (cleanAbstract "Hello world.").data)
    ∧ cleanAbstract (cleanAbstract "Hello world.") = cleanAbstract "Hello world." :=
  ⟨by decide, abstractIdem_amended "Hello world." (by decide) (by decide)
    (by decide) (by decide)⟩
